import Mathlib

/-!
Verification of the `simplejson` parser from `src/json.hpp` of the
earthquake-data-pipeline repository.

The embedding works on byte sequences: a C++ `std::string_view` input is a
`List Nat` of byte values (each below 256).  The parser class keeps an input
and a cursor `pos_`; since every helper only ever consumes a prefix, we embed
each member function as a function from the remaining input (the suffix of the
original input starting at `pos_`) to a result paired with the new remaining
input.  C++ exceptions (`throw ParseError(...)`) become the `Except.error`
branch; each throw site of the source has its own constructor in `JErr` below.

`parse_value`, `parse_array` and `parse_object` are mutually recursive in the
source; the embedding adds an explicit fuel argument that every mutual call
decreases, and the entry point `parse` supplies `3 * length + 1` fuel, which
is proved sufficient (`parse_never_noFuel`).
-/

namespace simplejson

/-- Error conditions of the parser.  Each constructor corresponds to exactly
one family of `throw ParseError(...)` sites in `src/json.hpp`; the C++
message text is noted in the comment.  `noFuel` is an artifact of the fuel
embedding and is proved unreachable for the fuel used by `parse`. -/
inductive JErr where
  /-- C++ message: Unexpected characters after JSON value. -/
  | trailingContent : JErr
  /-- C++ message: Unexpected end of input (from `peek`, `advance`, `parse_value`). -/
  | unexpectedEnd : JErr
  /-- C++ message: Invalid JSON value. -/
  | invalidValue : JErr
  /-- C++ message: Expected <text> (from `expect(std::string_view)`). -/
  | expectedLiteral (text : List Nat) : JErr
  /-- C++ message: Invalid boolean value. -/
  | invalidBool : JErr
  /-- C++ message: Unexpected end of input in number. -/
  | unexpectedEndInNumber : JErr
  /-- C++ message: Invalid number. -/
  | invalidNumber : JErr
  /-- C++ message: Invalid number fraction. -/
  | invalidNumberFraction : JErr
  /-- C++ message: Invalid number exponent. -/
  | invalidNumberExponent : JErr
  /-- C++ message: Unterminated string. -/
  | unterminatedString : JErr
  /-- C++ message: Unterminated escape sequence. -/
  | unterminatedEscape : JErr
  /-- C++ message: Invalid escape sequence. -/
  | invalidEscape : JErr
  /-- C++ message: Unexpected end of input in unicode escape. -/
  | unexpectedEndInUnicode : JErr
  /-- C++ message: Invalid unicode escape. -/
  | invalidUnicode : JErr
  /-- C++ message: Invalid control character in string. -/
  | invalidControlChar : JErr
  /-- C++ message: Expected <char> (from `expect(char)`); the byte is recorded.
  `expectedChar 58` is the spec name ExpectedColon. -/
  | expectedChar (c : Nat) : JErr
  /-- C++ message: Expected string key in object (spec name ExpectedObjectKey). -/
  | expectedObjectKey : JErr
  /-- C++ message: Expected comma or closing bracket in array. -/
  | expectedCommaOrBracket : JErr
  /-- C++ message: Expected comma or closing brace in object. -/
  | expectedCommaOrBrace : JErr
  /-- Fuel exhaustion; an artifact of the embedding, never reached by `parse`. -/
  | noFuel : JErr
deriving DecidableEq, Repr

/-- The JSON value tree built by the parser (`JsonValue` in the source).
A C++ `double` produced by `std::stod` is not shallow-embeddable, so a number
keeps the exact lexeme (byte sequence) that the source would hand to `stod`;
no claim depends on the floating-point value.  A `JsonObject`
(`std::map<std::string, JsonValue>`) is embedded as its ordered list of
entries, and a `JsonArray` (`std::vector<JsonValue>`) as a list. -/
inductive JsonValue where
  | null : JsonValue
  | bool (b : Bool) : JsonValue
  | num (lexeme : List Nat) : JsonValue
  | str (s : List Nat) : JsonValue
  | arr (items : List JsonValue) : JsonValue
  | obj (entries : List (List Nat × JsonValue)) : JsonValue
deriving Repr

/-- `JsonValue::is_null` (`std::holds_alternative<std::nullptr_t>`). -/
def is_null : JsonValue → Bool
  | .null => true
  | _ => false

/-- `JsonValue::is_bool`. -/
def is_bool : JsonValue → Bool
  | .bool _ => true
  | _ => false

/-- `JsonValue::is_number`. -/
def is_number : JsonValue → Bool
  | .num _ => true
  | _ => false

/-- `JsonValue::is_string`. -/
def is_string : JsonValue → Bool
  | .str _ => true
  | _ => false

/-- `JsonValue::is_array`. -/
def is_array : JsonValue → Bool
  | .arr _ => true
  | _ => false

/-- `JsonValue::is_object`. -/
def is_object : JsonValue → Bool
  | .obj _ => true
  | _ => false

/-- `JsonValue::as_string`: `std::get<std::string>` returns the string when the
variant holds one and otherwise throws `std::bad_variant_access`. -/
def as_string : JsonValue → Except String (List Nat)
  | .str s => .ok s
  | _ => .error "bad_variant_access"

/-- `JsonValue::as_number` (`std::get<double>`); yields the number lexeme. -/
def as_number : JsonValue → Except String (List Nat)
  | .num x => .ok x
  | _ => .error "bad_variant_access"

/-- `JsonValue::as_bool` (`std::get<bool>`). -/
def as_bool : JsonValue → Except String Bool
  | .bool b => .ok b
  | _ => .error "bad_variant_access"

/-- `JsonValue::as_array` (`std::get<JsonArray>`). -/
def as_array : JsonValue → Except String (List JsonValue)
  | .arr xs => .ok xs
  | _ => .error "bad_variant_access"

/-- `JsonValue::as_object` (`std::get<JsonObject>`). -/
def as_object : JsonValue → Except String (List (List Nat × JsonValue))
  | .obj es => .ok es
  | _ => .error "bad_variant_access"

/-- `std::isspace` in the default C locale, on a byte: space, horizontal tab,
newline, vertical tab, form feed, carriage return.  `main.cpp` never calls
`setlocale`, so this is the comparison `skip_whitespace` performs. -/
def isspace (c : Nat) : Bool :=
  c == 32 || c == 9 || c == 10 || c == 11 || c == 12 || c == 13

/-- `std::isdigit` in the C locale, on a byte. -/
def isdigit (c : Nat) : Bool :=
  decide (48 ≤ c ∧ c ≤ 57)

/-- `Parser::skip_whitespace`: drop leading bytes for which `isspace` holds. -/
def skip_whitespace : List Nat → List Nat
  | [] => []
  | c :: r => if isspace c then skip_whitespace r else c :: r

/-- `Parser::match(std::string_view)`: if `text` is a prefix of the remaining
input, consume it and return the rest, else `none` (and the cursor stays). -/
def matchLit (text l : List Nat) : Option (List Nat) :=
  if l.take text.length = text then some (l.drop text.length) else none

/-- `Parser::parse_null`: `expect("null")`. -/
def parse_null (l : List Nat) : Except JErr (JsonValue × List Nat) :=
  match matchLit [110, 117, 108, 108] l with
  | some r => .ok (.null, r)
  | none => .error (.expectedLiteral [110, 117, 108, 108])

/-- `Parser::parse_bool`: `match("true")`, else `match("false")`, else error. -/
def parse_bool (l : List Nat) : Except JErr (JsonValue × List Nat) :=
  match matchLit [116, 114, 117, 101] l with
  | some r => .ok (.bool true, r)
  | none =>
    match matchLit [102, 97, 108, 115, 101] l with
    | some r => .ok (.bool false, r)
    | none => .error .invalidBool

/-- One digit of `parse_unicode_escape`: value of a hex digit byte, checked in
the source order `0-9`, then `a-f`, then `A-F`. -/
def hexVal (c : Nat) : Option Nat :=
  if 48 ≤ c ∧ c ≤ 57 then some (c - 48)
  else if 97 ≤ c ∧ c ≤ 102 then some (10 + (c - 97))
  else if 65 ≤ c ∧ c ≤ 70 then some (10 + (c - 65))
  else none

/-- The `for (int i = 0; i < 4; ++i)` loop of `Parser::parse_unicode_escape`:
read `n` hex digits into an accumulator (`value <<= 4; value += digit`),
failing on end of input or on a non-hex byte. -/
def readHex4 : Nat → Nat → List Nat → Except JErr (Nat × List Nat)
  | 0, acc, l => .ok (acc, l)
  | _ + 1, _, [] => .error .unexpectedEndInUnicode
  | n + 1, acc, c :: r =>
    match hexVal c with
    | some d => readHex4 n (acc * 16 + d) r
    | none => .error .invalidUnicode

/-- `Parser::parse_unicode_escape`: read 4 hex digits; a value of at most 0x7F
is returned as that byte, anything larger becomes a literal question mark
(byte 63). -/
def parse_unicode_escape (l : List Nat) : Except JErr (Nat × List Nat) :=
  match readHex4 4 0 l with
  | .error e => .error e
  | .ok (v, r) => .ok ((if v ≤ 127 then v else 63), r)

/-- Prepend a byte to the string being accumulated (`result.push_back`). -/
def consMap (c : Nat) :
    Except JErr (List Nat × List Nat) → Except JErr (List Nat × List Nat)
  | .error e => .error e
  | .ok (s, r) => .ok (c :: s, r)

/-- The `while (!eof())` loop of `Parser::parse_string`, after the opening
quote has been consumed.  Each iteration consumes at least one byte and the
fuel given by `parse_string` strictly exceeds the remaining length, so the
fuel-0 branch is unreachable there. -/
def parse_string_core : Nat → List Nat → Except JErr (List Nat × List Nat)
  | 0, _ => .error .noFuel
  | _ + 1, [] => .error .unterminatedString
  | f + 1, c :: r =>
    if c = 34 then .ok ([], r)
    else if c = 92 then
      match r with
      | [] => .error .unterminatedEscape
      | e :: r2 =>
        if e = 34 then consMap 34 (parse_string_core f r2)
        else if e = 92 then consMap 92 (parse_string_core f r2)
        else if e = 47 then consMap 47 (parse_string_core f r2)
        else if e = 98 then consMap 8 (parse_string_core f r2)
        else if e = 102 then consMap 12 (parse_string_core f r2)
        else if e = 110 then consMap 10 (parse_string_core f r2)
        else if e = 114 then consMap 13 (parse_string_core f r2)
        else if e = 116 then consMap 9 (parse_string_core f r2)
        else if e = 117 then
          match parse_unicode_escape r2 with
          | .error err => .error err
          | .ok (ch, r3) => consMap ch (parse_string_core f r3)
        else .error .invalidEscape
    else if c < 32 then .error .invalidControlChar
    else consMap c (parse_string_core f r)

/-- `Parser::parse_string`: `expect(quote)` then the scanning loop, returning
the decoded byte string and the remaining input. -/
def parse_string (l : List Nat) : Except JErr (List Nat × List Nat) :=
  match l with
  | [] => .error (.expectedChar 34)
  | c :: r =>
    if c = 34 then parse_string_core (r.length + 1) r
    else .error (.expectedChar 34)

/-- The digit-scanning loops of `parse_number`
(`while (!eof() && isdigit(peek())) advance()`): split off the longest digit
prefix. -/
def span_digits : List Nat → List Nat × List Nat
  | [] => ([], [])
  | c :: r =>
    if isdigit c then
      let p := span_digits r
      (c :: p.1, p.2)
    else ([], c :: r)

/-- The integer-part section of `Parser::parse_number`, entered after the
optional minus sign: the `if (eof()) throw` guard, then a single `0`, or a
nonempty digit run, or the invalid-number error.  Returns the consumed lexeme
piece and the remaining input. -/
def number_int (l1 : List Nat) : Except JErr (List Nat × List Nat) :=
  match l1 with
  | [] => .error .unexpectedEndInNumber
  | c1 :: r1 =>
    if c1 = 48 then .ok ([48], r1)
    else if isdigit c1 then
      let p := span_digits (c1 :: r1)
      .ok (p.1, p.2)
    else .error .invalidNumber

/-- The fraction section of `Parser::parse_number`: when the next byte is a
dot it must be followed by at least one digit, which are all consumed;
otherwise nothing is consumed. -/
def number_frac (l2 : List Nat) : Except JErr (List Nat × List Nat) :=
  match l2 with
  | [] => .ok ([], [])
  | c :: r2 =>
    if c = 46 then
      match r2 with
      | [] => .error .invalidNumberFraction
      | d :: _ =>
        if isdigit d then .ok (46 :: (span_digits r2).1, (span_digits r2).2)
        else .error .invalidNumberFraction
    else .ok ([], c :: r2)

/-- The optional exponent sign of `parse_number`
(`if (!eof() && (peek() == plus || peek() == minus)) advance()`): the sign
byte consumed, if any. -/
def exp_sign_sgn : List Nat → List Nat
  | s :: _ => if s = 43 ∨ s = 45 then [s] else []
  | [] => []

/-- The input remaining after the optional exponent sign. -/
def exp_sign_rest : List Nat → List Nat
  | s :: r4 => if s = 43 ∨ s = 45 then r4 else s :: r4
  | [] => []

/-- The exponent section of `Parser::parse_number`: `e` or `E`, an optional
sign, then at least one digit; otherwise nothing is consumed. -/
def number_exp (l3 : List Nat) : Except JErr (List Nat × List Nat) :=
  match l3 with
  | [] => .ok ([], [])
  | e0 :: r3 =>
    if e0 = 101 ∨ e0 = 69 then
      match exp_sign_rest r3 with
      | [] => .error .invalidNumberExponent
      | d :: _ =>
        if isdigit d then
          .ok (e0 :: (exp_sign_sgn r3 ++ (span_digits (exp_sign_rest r3)).1),
            (span_digits (exp_sign_rest r3)).2)
        else .error .invalidNumberExponent
    else .ok ([], e0 :: r3)

/-- `Parser::parse_number`.  Grammar (mirroring the source): optional minus;
a single `0` or a nonempty digit run; optional fraction; optional exponent.
The value handed to `std::stod` is not shallow-embeddable as a float, so the
result keeps the consumed lexeme `sign ++ intPart ++ fracPart ++ expPart`,
exactly the `input_.substr(start, pos_ - start)` the source converts. -/
def parse_number (l : List Nat) : Except JErr (JsonValue × List Nat) :=
  match l with
  | [] => .error .unexpectedEnd
  | c0 :: r0 =>
    match number_int (if c0 = 45 then r0 else c0 :: r0) with
    | .error e => .error e
    | .ok (ip, l2) =>
      match number_frac l2 with
      | .error e => .error e
      | .ok (fp, l3) =>
        match number_exp l3 with
        | .error e => .error e
        | .ok (ep, l4) =>
          .ok (.num ((if c0 = 45 then [45] else []) ++ ip ++ fp ++ ep), l4)

/-- `std::string` comparison `operator<`: lexicographic, byte-wise.  This is
the key order of `JsonObject = std::map<std::string, JsonValue>`. -/
def lexLt : List Nat → List Nat → Bool
  | [], [] => false
  | [], _ :: _ => true
  | _ :: _, [] => false
  | a :: as, b :: bs =>
    if a < b then true
    else if b < a then false
    else lexLt as bs

/-- `std::map::emplace` on the ordered entry list: insert at the ordered
position, and do nothing when an entry with an equivalent key (neither less
nor greater) is already present — the mapped value is not updated. -/
def mapEmplace (k : List Nat) (v : JsonValue) :
    List (List Nat × JsonValue) → List (List Nat × JsonValue)
  | [] => [(k, v)]
  | (k1, v1) :: rest =>
    if lexLt k k1 then (k, v) :: (k1, v1) :: rest
    else if lexLt k1 k then (k1, v1) :: mapEmplace k v rest
    else (k1, v1) :: rest

/-- `std::map::find` on the entry list: the entry whose key is equivalent to
`k` (for the total order on byte strings, equivalence is equality). -/
def mapFind (k : List Nat) : List (List Nat × JsonValue) → Option JsonValue
  | [] => none
  | (k1, v1) :: rest => if k = k1 then some v1 else mapFind k rest

/-- `simplejson::get(const JsonObject &, const std::string &)`: a present key
yields its value, an absent key yields the null pointer (`none`). -/
def get_object (object : List (List Nat × JsonValue)) (key : List Nat) :
    Option JsonValue :=
  mapFind key object

/-- `simplejson::get(const JsonArray &, size_t)`: an index past the end yields
the null pointer (`none`), otherwise the element. -/
def get_array (array : List JsonValue) (index : Nat) : Option JsonValue :=
  if h : array.length ≤ index then none
  else some (array.get ⟨index, Nat.lt_of_not_le h⟩)

mutual

/-- `Parser::parse_value`: dispatch on the first unconsumed byte.  The fuel
argument decreases on every mutual call; `parse` supplies enough fuel that
the `noFuel` branch is never taken. -/
def parse_value : Nat → List Nat → Except JErr (JsonValue × List Nat)
  | 0, _ => .error .noFuel
  | f + 1, l =>
    match l with
    | [] => .error .unexpectedEnd
    | c :: _ =>
      if c = 110 then parse_null l
      else if c = 116 ∨ c = 102 then parse_bool l
      else if c = 34 then
        match parse_string l with
        | .error e => .error e
        | .ok (s, r) => .ok (.str s, r)
      else if c = 91 then parse_array f l
      else if c = 123 then parse_object f l
      else if c = 45 ∨ isdigit c then parse_number l
      else .error .invalidValue

/-- `Parser::parse_array`: `expect(openBracket)`, then either an immediate
closer or the element loop. -/
def parse_array : Nat → List Nat → Except JErr (JsonValue × List Nat)
  | 0, _ => .error .noFuel
  | _ + 1, [] => .error (.expectedChar 91)
  | f + 1, c :: r =>
    if c = 91 then
      match skip_whitespace r with
      | [] => .error .unexpectedEnd
      | w :: wt =>
        if w = 93 then .ok (.arr [], wt)
        else parse_array_items f [] (w :: wt)
    else .error (.expectedChar 91)

/-- The `while (true)` loop of `parse_array`: parse an element, then a comma
continues the loop and a closing bracket returns the accumulated vector. -/
def parse_array_items :
    Nat → List JsonValue → List Nat → Except JErr (JsonValue × List Nat)
  | 0, _, _ => .error .noFuel
  | f + 1, acc, l =>
    match parse_value f l with
    | .error e => .error e
    | .ok (v, r) =>
      match skip_whitespace r with
      | [] => .error .unexpectedEnd
      | w :: wt =>
        if w = 44 then parse_array_items f (acc ++ [v]) (skip_whitespace wt)
        else if w = 93 then .ok (.arr (acc ++ [v]), wt)
        else .error .expectedCommaOrBracket

/-- `Parser::parse_object`: `expect(openBrace)`, then either an immediate
closer or the member loop. -/
def parse_object : Nat → List Nat → Except JErr (JsonValue × List Nat)
  | 0, _ => .error .noFuel
  | _ + 1, [] => .error (.expectedChar 123)
  | f + 1, c :: r =>
    if c = 123 then
      match skip_whitespace r with
      | [] => .error .unexpectedEnd
      | w :: wt =>
        if w = 125 then .ok (.obj [], wt)
        else parse_object_items f [] (w :: wt)
    else .error (.expectedChar 123)

/-- The `while (true)` loop of `parse_object`: a string key, a colon, a value,
`object.emplace(key, value)`, then a comma continues and a closing brace
returns the map. -/
def parse_object_items :
    Nat → List (List Nat × JsonValue) → List Nat →
      Except JErr (JsonValue × List Nat)
  | 0, _, _ => .error .noFuel
  | f + 1, acc, l =>
    match l with
    | [] => .error .unexpectedEnd
    | c :: _ =>
      if c = 34 then
        match parse_string l with
        | .error e => .error e
        | .ok (key, r) =>
          match skip_whitespace r with
          | [] => .error (.expectedChar 58)
          | c2 :: r2 =>
            if c2 = 58 then
              match parse_value f (skip_whitespace r2) with
              | .error e => .error e
              | .ok (v, r3) =>
                match skip_whitespace r3 with
                | [] => .error .unexpectedEnd
                | c3 :: r4 =>
                  if c3 = 44 then
                    parse_object_items f (mapEmplace key v acc)
                      (skip_whitespace r4)
                  else if c3 = 125 then .ok (.obj (mapEmplace key v acc), r4)
                  else .error .expectedCommaOrBrace
            else .error (.expectedChar 58)
      else .error .expectedObjectKey

end

/-- Fuel budget of the entry point; `parse_never_noFuel` proves it enough. -/
def parseFuel (input : List Nat) : Nat :=
  3 * input.length + 1

/-- `Parser::parse` / `simplejson::parse`: skip leading whitespace, parse one
value, skip trailing whitespace, and fail unless the whole input was
consumed. -/
def parse (input : List Nat) : Except JErr JsonValue :=
  match parse_value (parseFuel input) (skip_whitespace input) with
  | .error e => .error e
  | .ok (v, r) =>
    match skip_whitespace r with
    | [] => .ok v
    | _ :: _ => .error .trailingContent

/-- Lower bound on the keys of an entry list: `b` is below the first key (and,
for an ordered list, hence below every key). -/
def keyLB (b : List Nat) : List (List Nat × JsonValue) → Bool
  | [] => true
  | e :: _ => lexLt b e.1

/-- The entry list is strictly increasing in its keys — the invariant
`std::map` maintains and its iteration order exposes. -/
def pairsOrdered : List (List Nat × JsonValue) → Bool
  | [] => true
  | e :: rest => keyLB e.1 rest && pairsOrdered rest

mutual

/-- Every object node anywhere in the value has strictly increasing keys. -/
def objKeysSorted : JsonValue → Bool
  | .arr xs => arrAllSorted xs
  | .obj es => pairsOrdered es && objAllSorted es
  | _ => true

/-- `objKeysSorted` on each element of an array. -/
def arrAllSorted : List JsonValue → Bool
  | [] => true
  | v :: vs => objKeysSorted v && arrAllSorted vs

/-- `objKeysSorted` on each mapped value of an object. -/
def objAllSorted : List (List Nat × JsonValue) → Bool
  | [] => true
  | e :: es => objKeysSorted e.2 && objAllSorted es

end

/-! ## Basic length and progress lemmas -/

theorem skip_whitespace_length (l : List Nat) :
    (skip_whitespace l).length ≤ l.length := by
  induction l with
  | nil => simp [skip_whitespace]
  | cons c r ih =>
    simp only [skip_whitespace]
    split
    · exact le_trans ih (by simp)
    · simp

theorem matchLit_eq_some {t l r : List Nat} (h : matchLit t l = some r) :
    t.length ≤ l.length ∧ r.length + t.length = l.length := by
  unfold matchLit at h
  split at h
  · rename_i htake
    have hlen : t.length ≤ l.length := by
      have := congrArg List.length htake
      simp [List.length_take] at this
      omega
    cases h
    constructor
    · exact hlen
    · simp [List.length_drop]
      omega
  · cases h

theorem span_digits_append (l : List Nat) :
    (span_digits l).1 ++ (span_digits l).2 = l := by
  induction l with
  | nil => simp [span_digits]
  | cons c r ih =>
    simp only [span_digits]
    split
    · simpa using ih
    · simp

theorem span_digits_snd_length (l : List Nat) :
    (span_digits l).2.length ≤ l.length := by
  conv_rhs => rw [← span_digits_append l]
  simp

theorem readHex4_length (n : Nat) :
    ∀ acc l v r, readHex4 n acc l = .ok (v, r) → r.length + n = l.length := by
  induction n with
  | zero =>
    intro acc l v r h
    simp [readHex4] at h
    simp [h.2]
  | succ n ih =>
    intro acc l v r h
    cases l with
    | nil => simp [readHex4] at h
    | cons c cr =>
      simp only [readHex4] at h
      cases hx : hexVal c with
      | none => rw [hx] at h; cases h
      | some d =>
        rw [hx] at h
        have := ih _ _ _ _ h
        simp
        omega

theorem parse_unicode_escape_length {l : List Nat} {v : Nat} {r : List Nat}
    (h : parse_unicode_escape l = .ok (v, r)) : r.length + 4 = l.length := by
  unfold parse_unicode_escape at h
  cases hr : readHex4 4 0 l with
  | error e => rw [hr] at h; cases h
  | ok p =>
    obtain ⟨v0, r0⟩ := p
    rw [hr] at h
    simp at h
    obtain ⟨-, rfl⟩ := h
    exact readHex4_length 4 0 l v0 r0 hr

theorem consMap_ok {c : Nat} {res : Except JErr (List Nat × List Nat)}
    {s r : List Nat} (h : consMap c res = .ok (s, r)) :
    ∃ s0, res = .ok (s0, r) ∧ s = c :: s0 := by
  cases res with
  | error e => cases h
  | ok p =>
    obtain ⟨s0, r0⟩ := p
    simp [consMap] at h
    exact ⟨s0, by simp [h.1, h.2]⟩

set_option maxHeartbeats 1600000 in
theorem parse_string_core_length (f : Nat) :
    ∀ l s r, parse_string_core f l = .ok (s, r) → r.length < l.length := by
  induction f with
  | zero => intro l s r h; cases h
  | succ f ih =>
    intro l s r h
    cases l with
    | nil => cases h
    | cons c cr =>
      simp only [parse_string_core] at h
      repeat' split at h
      all_goals
        first
        | (cases h <;> (simp only [List.length_cons]; omega))
        | (obtain ⟨s0, h0, rfl⟩ := consMap_ok h
           have h1 := ih _ _ _ h0
           simp only [List.length_cons]
           omega)
        | (rename_i heq
           obtain ⟨s0, h0, rfl⟩ := consMap_ok h
           have h1 := ih _ _ _ h0
           have h2 := parse_unicode_escape_length heq
           simp only [List.length_cons]
           omega)

theorem parse_string_length {l s r : List Nat}
    (h : parse_string l = .ok (s, r)) : r.length + 2 ≤ l.length := by
  cases l with
  | nil => cases h
  | cons c cr =>
    simp only [parse_string] at h
    by_cases h34 : c = 34
    · rw [if_pos h34] at h
      have := parse_string_core_length _ _ _ _ h
      simp only [List.length_cons]
      omega
    · rw [if_neg h34] at h
      cases h

theorem parse_null_length {l : List Nat} {v : JsonValue} {r : List Nat}
    (h : parse_null l = .ok (v, r)) : r.length < l.length := by
  unfold parse_null at h
  cases hm : matchLit [110, 117, 108, 108] l with
  | none => rw [hm] at h; cases h
  | some r0 =>
    rw [hm] at h
    simp at h
    obtain ⟨-, rfl⟩ := h
    have := matchLit_eq_some hm
    simp at this
    omega

theorem parse_bool_length {l : List Nat} {v : JsonValue} {r : List Nat}
    (h : parse_bool l = .ok (v, r)) : r.length < l.length := by
  unfold parse_bool at h
  cases hm : matchLit [116, 114, 117, 101] l with
  | some r0 =>
    rw [hm] at h
    simp at h
    obtain ⟨-, rfl⟩ := h
    have := matchLit_eq_some hm
    simp at this
    omega
  | none =>
    rw [hm] at h
    cases hm2 : matchLit [102, 97, 108, 115, 101] l with
    | none => rw [hm2] at h; cases h
    | some r0 =>
      rw [hm2] at h
      simp at h
      obtain ⟨-, rfl⟩ := h
      have := matchLit_eq_some hm2
      simp at this
      omega

theorem number_int_length {l1 ip l2 : List Nat}
    (h : number_int l1 = .ok (ip, l2)) : l2.length < l1.length := by
  cases l1 with
  | nil => cases h
  | cons c1 r1 =>
    simp only [number_int] at h
    by_cases h48 : c1 = 48
    · rw [if_pos h48] at h
      simp at h
      obtain ⟨-, rfl⟩ := h
      simp
    · rw [if_neg h48] at h
      by_cases hdig : isdigit c1 = true
      · rw [if_pos hdig] at h
        simp only [span_digits] at h
        rw [if_pos hdig] at h
        simp at h
        obtain ⟨-, rfl⟩ := h
        have := span_digits_snd_length r1
        simp only [List.length_cons]
        omega
      · rw [if_neg hdig] at h
        cases h

theorem number_frac_length {l2 fp l3 : List Nat}
    (h : number_frac l2 = .ok (fp, l3)) : l3.length ≤ l2.length := by
  cases l2 with
  | nil =>
    simp only [number_frac] at h
    rw [Except.ok.injEq, Prod.mk.injEq] at h
    obtain ⟨-, rfl⟩ := h
    exact le_refl _
  | cons c r2 =>
    simp only [number_frac] at h
    by_cases h46 : c = 46
    · rw [if_pos h46] at h
      cases r2 with
      | nil => cases h
      | cons d r2t =>
        simp only [] at h
        by_cases hd : isdigit d = true
        · rw [if_pos hd] at h
          rw [Except.ok.injEq, Prod.mk.injEq] at h
          obtain ⟨-, rfl⟩ := h
          have := span_digits_snd_length (d :: r2t)
          simp only [List.length_cons] at this ⊢
          omega
        · rw [if_neg hd] at h
          cases h
    · rw [if_neg h46] at h
      rw [Except.ok.injEq, Prod.mk.injEq] at h
      obtain ⟨-, rfl⟩ := h
      exact le_refl _

theorem exp_sign_rest_length (r3 : List Nat) :
    (exp_sign_rest r3).length ≤ r3.length := by
  cases r3 with
  | nil => simp [exp_sign_rest]
  | cons s r4 =>
    simp only [exp_sign_rest]
    split <;> simp

theorem number_exp_length {l3 ep l4 : List Nat}
    (h : number_exp l3 = .ok (ep, l4)) : l4.length ≤ l3.length := by
  cases l3 with
  | nil =>
    simp only [number_exp] at h
    rw [Except.ok.injEq, Prod.mk.injEq] at h
    obtain ⟨-, rfl⟩ := h
    exact le_refl _
  | cons e0 r3 =>
    simp only [number_exp] at h
    by_cases he : e0 = 101 ∨ e0 = 69
    · rw [if_pos he] at h
      cases hrest : exp_sign_rest r3 with
      | nil => rw [hrest] at h; cases h
      | cons d r5 =>
        rw [hrest] at h
        simp only [] at h
        by_cases hd : isdigit d = true
        · rw [if_pos hd] at h
          rw [Except.ok.injEq, Prod.mk.injEq] at h
          obtain ⟨-, rfl⟩ := h
          have h1 := span_digits_snd_length (d :: r5)
          have h2 := exp_sign_rest_length r3
          rw [hrest] at h2
          simp only [List.length_cons] at h1 h2 ⊢
          omega
        · rw [if_neg hd] at h
          cases h
    · rw [if_neg he] at h
      rw [Except.ok.injEq, Prod.mk.injEq] at h
      obtain ⟨-, rfl⟩ := h
      exact le_refl _

theorem parse_number_length {l : List Nat} {v : JsonValue} {r : List Nat}
    (h : parse_number l = .ok (v, r)) : r.length < l.length := by
  cases l with
  | nil => cases h
  | cons c0 r0 =>
    simp only [parse_number] at h
    have hl1 : (if c0 = 45 then r0 else c0 :: r0).length ≤ (c0 :: r0).length := by
      split <;> simp
    split at h
    · cases h
    · rename_i ip l2 hint
      split at h
      · cases h
      · rename_i fp l3 hfrac
        split at h
        · cases h
        · rename_i ep l4 hexp
          simp at h
          obtain ⟨-, rfl⟩ := h
          have h1 := number_int_length hint
          have h2 := number_frac_length hfrac
          have h3 := number_exp_length hexp
          simp only [List.length_cons] at hl1 ⊢
          omega

/-- Strict progress for the mutually recursive parsers: every successful
parse consumes at least one byte.  This is the C++ termination argument: the
cursor strictly advances through every value, so the loops and recursion are
well founded. -/
theorem parse_progress (fuel : Nat) :
    (∀ l v r, parse_value fuel l = .ok (v, r) → r.length < l.length) ∧
    (∀ l v r, parse_array fuel l = .ok (v, r) → r.length < l.length) ∧
    (∀ l v r, parse_object fuel l = .ok (v, r) → r.length < l.length) ∧
    (∀ acc l v r, parse_array_items fuel acc l = .ok (v, r) →
      r.length < l.length) ∧
    (∀ acc l v r, parse_object_items fuel acc l = .ok (v, r) →
      r.length < l.length) := by
  induction fuel with
  | zero =>
    refine ⟨fun l v r h => ?_, fun l v r h => ?_, fun l v r h => ?_,
      fun acc l v r h => ?_, fun acc l v r h => ?_⟩ <;> cases h
  | succ f ih =>
    obtain ⟨ihv, iha, iho, ihai, ihoi⟩ := ih
    refine ⟨?_, ?_, ?_, ?_, ?_⟩
    · -- parse_value
      intro l v r h
      cases l with
      | nil => cases h
      | cons c ct =>
        simp only [parse_value] at h
        by_cases h110 : c = 110
        · rw [if_pos h110] at h
          exact parse_null_length h
        · rw [if_neg h110] at h
          by_cases htf : c = 116 ∨ c = 102
          · rw [if_pos htf] at h
            exact parse_bool_length h
          · rw [if_neg htf] at h
            by_cases h34 : c = 34
            · rw [if_pos h34] at h
              cases hs : parse_string (c :: ct) with
              | error e => rw [hs] at h; cases h
              | ok p =>
                obtain ⟨s0, r0⟩ := p
                rw [hs] at h
                simp only [] at h
                rw [Except.ok.injEq, Prod.mk.injEq] at h
                obtain ⟨-, rfl⟩ := h
                have := parse_string_length hs
                omega
            · rw [if_neg h34] at h
              by_cases h91 : c = 91
              · rw [if_pos h91] at h
                exact iha _ _ _ h
              · rw [if_neg h91] at h
                by_cases h123 : c = 123
                · rw [if_pos h123] at h
                  exact iho _ _ _ h
                · rw [if_neg h123] at h
                  by_cases hnum : c = 45 ∨ isdigit c = true
                  · rw [if_pos hnum] at h
                    exact parse_number_length h
                  · rw [if_neg hnum] at h
                    cases h
    · -- parse_array
      intro l v r h
      cases l with
      | nil => cases h
      | cons c ct =>
        simp only [parse_array] at h
        by_cases h91 : c = 91
        · rw [if_pos h91] at h
          cases hskip : skip_whitespace ct with
          | nil => rw [hskip] at h; cases h
          | cons w wt =>
            rw [hskip] at h
            simp only [] at h
            have hs1 : (w :: wt).length ≤ ct.length :=
              hskip ▸ skip_whitespace_length ct
            by_cases hw : w = 93
            · rw [if_pos hw] at h
              rw [Except.ok.injEq, Prod.mk.injEq] at h
              obtain ⟨-, rfl⟩ := h
              simp only [List.length_cons] at hs1 ⊢
              omega
            · rw [if_neg hw] at h
              have := ihai _ _ _ _ h
              simp only [List.length_cons] at this hs1 ⊢
              omega
        · rw [if_neg h91] at h
          cases h
    · -- parse_object
      intro l v r h
      cases l with
      | nil => cases h
      | cons c ct =>
        simp only [parse_object] at h
        by_cases h123 : c = 123
        · rw [if_pos h123] at h
          cases hskip : skip_whitespace ct with
          | nil => rw [hskip] at h; cases h
          | cons w wt =>
            rw [hskip] at h
            simp only [] at h
            have hs1 : (w :: wt).length ≤ ct.length :=
              hskip ▸ skip_whitespace_length ct
            by_cases hw : w = 125
            · rw [if_pos hw] at h
              rw [Except.ok.injEq, Prod.mk.injEq] at h
              obtain ⟨-, rfl⟩ := h
              simp only [List.length_cons] at hs1 ⊢
              omega
            · rw [if_neg hw] at h
              have := ihoi _ _ _ _ h
              simp only [List.length_cons] at this hs1 ⊢
              omega
        · rw [if_neg h123] at h
          cases h
    · -- parse_array_items
      intro acc l v r h
      simp only [parse_array_items] at h
      cases hval : parse_value f l with
      | error e => rw [hval] at h; cases h
      | ok p =>
        obtain ⟨v0, r0⟩ := p
        rw [hval] at h
        simp only [] at h
        have hv0 := ihv _ _ _ hval
        cases hskip : skip_whitespace r0 with
        | nil => rw [hskip] at h; cases h
        | cons w wt =>
          rw [hskip] at h
          simp only [] at h
          have hs1 : (w :: wt).length ≤ r0.length :=
            hskip ▸ skip_whitespace_length r0
          by_cases hw44 : w = 44
          · rw [if_pos hw44] at h
            have := ihai _ _ _ _ h
            have hs2 := skip_whitespace_length wt
            simp only [List.length_cons] at this hs1 ⊢
            omega
          · rw [if_neg hw44] at h
            by_cases hw93 : w = 93
            · rw [if_pos hw93] at h
              rw [Except.ok.injEq, Prod.mk.injEq] at h
              obtain ⟨-, rfl⟩ := h
              simp only [List.length_cons] at hs1 ⊢
              omega
            · rw [if_neg hw93] at h
              cases h
    · -- parse_object_items
      intro acc l v r h
      cases l with
      | nil => cases h
      | cons c ct =>
        simp only [parse_object_items] at h
        by_cases h34 : c = 34
        · rw [if_pos h34] at h
          cases hkey : parse_string (c :: ct) with
          | error e => rw [hkey] at h; cases h
          | ok p =>
            obtain ⟨key, r1⟩ := p
            rw [hkey] at h
            simp only [] at h
            have hklen := parse_string_length hkey
            cases hw1 : skip_whitespace r1 with
            | nil => rw [hw1] at h; cases h
            | cons c2 r2 =>
              rw [hw1] at h
              simp only [] at h
              have hs1 : (c2 :: r2).length ≤ r1.length :=
                hw1 ▸ skip_whitespace_length r1
              by_cases h58 : c2 = 58
              · rw [if_pos h58] at h
                cases hval : parse_value f (skip_whitespace r2) with
                | error e => rw [hval] at h; cases h
                | ok p2 =>
                  obtain ⟨v2, r3⟩ := p2
                  rw [hval] at h
                  simp only [] at h
                  have hvlen := ihv _ _ _ hval
                  have hs2 := skip_whitespace_length r2
                  cases hw3 : skip_whitespace r3 with
                  | nil => rw [hw3] at h; cases h
                  | cons c3 r4 =>
                    rw [hw3] at h
                    simp only [] at h
                    have hs3 : (c3 :: r4).length ≤ r3.length :=
                      hw3 ▸ skip_whitespace_length r3
                    by_cases h44 : c3 = 44
                    · rw [if_pos h44] at h
                      have := ihoi _ _ _ _ h
                      have hs4 := skip_whitespace_length r4
                      simp only [List.length_cons] at this hs1 hs3 hklen ⊢
                      omega
                    · rw [if_neg h44] at h
                      by_cases h125 : c3 = 125
                      · rw [if_pos h125] at h
                        rw [Except.ok.injEq, Prod.mk.injEq] at h
                        obtain ⟨-, rfl⟩ := h
                        simp only [List.length_cons] at hs1 hs3 hklen ⊢
                        omega
                      · rw [if_neg h125] at h
                        cases h
              · rw [if_neg h58] at h
                cases h
        · rw [if_neg h34] at h
          cases h

/-! ## Fuel sufficiency: the embedding artifact `noFuel` is unreachable -/

theorem parse_null_ne_noFuel (l : List Nat) :
    parse_null l ≠ .error .noFuel := by
  unfold parse_null
  cases matchLit [110, 117, 108, 108] l <;> simp

theorem parse_bool_ne_noFuel (l : List Nat) :
    parse_bool l ≠ .error .noFuel := by
  unfold parse_bool
  cases matchLit [116, 114, 117, 101] l <;>
    cases matchLit [102, 97, 108, 115, 101] l <;> simp

theorem number_int_ne_noFuel (l : List Nat) :
    number_int l ≠ .error .noFuel := by
  unfold number_int
  repeat' split
  all_goals simp

theorem number_frac_ne_noFuel (l : List Nat) :
    number_frac l ≠ .error .noFuel := by
  unfold number_frac
  repeat' split
  all_goals simp

theorem number_exp_ne_noFuel (l : List Nat) :
    number_exp l ≠ .error .noFuel := by
  unfold number_exp
  repeat' split
  all_goals simp

theorem parse_number_ne_noFuel (l : List Nat) :
    parse_number l ≠ .error .noFuel := by
  intro h
  cases l with
  | nil => cases h
  | cons c0 r0 =>
    simp only [parse_number] at h
    cases hint : number_int (if c0 = 45 then r0 else c0 :: r0) with
    | error e =>
      rw [hint] at h
      simp only [] at h
      rw [Except.error.injEq] at h
      exact number_int_ne_noFuel _ (h ▸ hint)
    | ok p1 =>
      obtain ⟨ip, l2⟩ := p1
      rw [hint] at h
      simp only [] at h
      cases hfrac : number_frac l2 with
      | error e =>
        rw [hfrac] at h
        simp only [] at h
        rw [Except.error.injEq] at h
        exact number_frac_ne_noFuel _ (h ▸ hfrac)
      | ok p2 =>
        obtain ⟨fp, l3⟩ := p2
        rw [hfrac] at h
        simp only [] at h
        cases hexp : number_exp l3 with
        | error e =>
          rw [hexp] at h
          simp only [] at h
          rw [Except.error.injEq] at h
          exact number_exp_ne_noFuel _ (h ▸ hexp)
        | ok p3 =>
          obtain ⟨ep, l4⟩ := p3
          rw [hexp] at h
          simp only [] at h
          cases h

theorem readHex4_ne_noFuel (n : Nat) :
    ∀ acc l, readHex4 n acc l ≠ .error .noFuel := by
  induction n with
  | zero => intro acc l h; cases h
  | succ n ih =>
    intro acc l h
    cases l with
    | nil => cases h
    | cons c cr =>
      simp only [readHex4] at h
      cases hx : hexVal c with
      | none => rw [hx] at h; cases h
      | some d => rw [hx] at h; exact ih _ _ h

theorem parse_unicode_escape_ne_noFuel (l : List Nat) :
    parse_unicode_escape l ≠ .error .noFuel := by
  intro h
  unfold parse_unicode_escape at h
  cases hr : readHex4 4 0 l with
  | error e =>
    rw [hr] at h
    simp only [] at h
    rw [Except.error.injEq] at h
    exact readHex4_ne_noFuel _ _ _ (h ▸ hr)
  | ok p => rw [hr] at h; cases h

theorem consMap_error {c : Nat} {res : Except JErr (List Nat × List Nat)}
    {e : JErr} (h : consMap c res = .error e) : res = .error e := by
  cases res with
  | error e0 => cases h; rfl
  | ok p => obtain ⟨s, r⟩ := p; cases h

theorem parse_string_core_ne_noFuel (f : Nat) :
    ∀ l, l.length < f → parse_string_core f l ≠ .error .noFuel := by
  induction f with
  | zero => intro l hl; omega
  | succ f ih =>
    intro l hl h
    cases l with
    | nil => cases h
    | cons c cr =>
      simp only [List.length_cons] at hl
      simp only [parse_string_core] at h
      by_cases h34 : c = 34
      · rw [if_pos h34] at h; cases h
      · rw [if_neg h34] at h
        by_cases h92 : c = 92
        · rw [if_pos h92] at h
          cases cr with
          | nil => cases h
          | cons e cr2 =>
            simp only [List.length_cons] at hl
            simp only [] at h
            repeat' split at h
            all_goals
              first
              | (cases h; done)
              | (exact ih _ (by omega) (consMap_error h))
              | (rename_i heq
                 have h4 := parse_unicode_escape_length heq
                 exact ih _ (by omega) (consMap_error h))
              | (rename_i heq
                 rw [Except.error.injEq] at h
                 exact parse_unicode_escape_ne_noFuel _ (h ▸ heq))
        · rw [if_neg h92] at h
          by_cases hc : c < 32
          · rw [if_pos hc] at h; cases h
          · rw [if_neg hc] at h
            exact ih _ (by omega) (consMap_error h)

theorem parse_string_ne_noFuel (l : List Nat) :
    parse_string l ≠ .error .noFuel := by
  cases l with
  | nil => intro h; cases h
  | cons c cr =>
    simp only [parse_string]
    by_cases h34 : c = 34
    · rw [if_pos h34]
      exact parse_string_core_ne_noFuel _ _ (by omega)
    · rw [if_neg h34]
      intro h
      cases h

/-- Fuel sufficiency for the mutually recursive parsers: with fuel exceeding
three times the remaining input length (plus the stated slack), the `noFuel`
artifact is never produced.  Together with `parse_progress` this shows the
C++ parser terminates on every finite input. -/
theorem parse_noFuel (fuel : Nat) :
    (∀ l, 3 * l.length + 1 ≤ fuel → parse_value fuel l ≠ .error .noFuel) ∧
    (∀ l, 1 ≤ l.length → 3 * l.length ≤ fuel →
      parse_array fuel l ≠ .error .noFuel) ∧
    (∀ l, 1 ≤ l.length → 3 * l.length ≤ fuel →
      parse_object fuel l ≠ .error .noFuel) ∧
    (∀ acc l, 3 * l.length + 2 ≤ fuel →
      parse_array_items fuel acc l ≠ .error .noFuel) ∧
    (∀ acc l, 3 * l.length + 2 ≤ fuel →
      parse_object_items fuel acc l ≠ .error .noFuel) := by
  induction fuel with
  | zero =>
    refine ⟨fun l hb h => ?_, fun l h1 hb h => ?_, fun l h1 hb h => ?_,
      fun acc l hb h => ?_, fun acc l hb h => ?_⟩ <;> omega
  | succ f ih =>
    obtain ⟨ihv, iha, iho, ihai, ihoi⟩ := ih
    refine ⟨?_, ?_, ?_, ?_, ?_⟩
    · -- parse_value
      intro l hb h
      cases l with
      | nil => cases h
      | cons c ct =>
        simp only [List.length_cons] at hb
        simp only [parse_value] at h
        by_cases h110 : c = 110
        · rw [if_pos h110] at h
          exact parse_null_ne_noFuel _ h
        · rw [if_neg h110] at h
          by_cases htf : c = 116 ∨ c = 102
          · rw [if_pos htf] at h
            exact parse_bool_ne_noFuel _ h
          · rw [if_neg htf] at h
            by_cases h34 : c = 34
            · rw [if_pos h34] at h
              cases hs : parse_string (c :: ct) with
              | error e =>
                rw [hs] at h
                simp only [] at h
                rw [Except.error.injEq] at h
                exact parse_string_ne_noFuel _ (h ▸ hs)
              | ok p => rw [hs] at h; cases h
            · rw [if_neg h34] at h
              by_cases h91 : c = 91
              · rw [if_pos h91] at h
                have hx1 : 1 ≤ (c :: ct).length := by simp
                have hx2 : 3 * (c :: ct).length ≤ f := by
                  simp only [List.length_cons]
                  omega
                exact iha _ hx1 hx2 h
              · rw [if_neg h91] at h
                by_cases h123 : c = 123
                · rw [if_pos h123] at h
                  have hx1 : 1 ≤ (c :: ct).length := by simp
                  have hx2 : 3 * (c :: ct).length ≤ f := by
                    simp only [List.length_cons]
                    omega
                  exact iho _ hx1 hx2 h
                · rw [if_neg h123] at h
                  by_cases hnum : c = 45 ∨ isdigit c = true
                  · rw [if_pos hnum] at h
                    exact parse_number_ne_noFuel _ h
                  · rw [if_neg hnum] at h
                    cases h
    · -- parse_array
      intro l h1 hb h
      cases l with
      | nil => cases h
      | cons c ct =>
        simp only [List.length_cons] at hb
        simp only [parse_array] at h
        by_cases h91 : c = 91
        · rw [if_pos h91] at h
          cases hskip : skip_whitespace ct with
          | nil => rw [hskip] at h; cases h
          | cons w wt =>
            rw [hskip] at h
            simp only [] at h
            have hs1 : (w :: wt).length ≤ ct.length :=
              hskip ▸ skip_whitespace_length ct
            simp only [List.length_cons] at hs1
            by_cases hw : w = 93
            · rw [if_pos hw] at h; cases h
            · rw [if_neg hw] at h
              have hx : 3 * (w :: wt).length + 2 ≤ f := by
                simp only [List.length_cons]
                omega
              exact ihai _ _ hx h
        · rw [if_neg h91] at h
          cases h
    · -- parse_object
      intro l h1 hb h
      cases l with
      | nil => cases h
      | cons c ct =>
        simp only [List.length_cons] at hb
        simp only [parse_object] at h
        by_cases h123 : c = 123
        · rw [if_pos h123] at h
          cases hskip : skip_whitespace ct with
          | nil => rw [hskip] at h; cases h
          | cons w wt =>
            rw [hskip] at h
            simp only [] at h
            have hs1 : (w :: wt).length ≤ ct.length :=
              hskip ▸ skip_whitespace_length ct
            simp only [List.length_cons] at hs1
            by_cases hw : w = 125
            · rw [if_pos hw] at h; cases h
            · rw [if_neg hw] at h
              have hx : 3 * (w :: wt).length + 2 ≤ f := by
                simp only [List.length_cons]
                omega
              exact ihoi _ _ hx h
        · rw [if_neg h123] at h
          cases h
    · -- parse_array_items
      intro acc l hb h
      simp only [parse_array_items] at h
      cases hval : parse_value f l with
      | error e =>
        rw [hval] at h
        simp only [] at h
        rw [Except.error.injEq] at h
        exact ihv _ (by omega) (h ▸ hval)
      | ok p =>
        obtain ⟨v0, r0⟩ := p
        rw [hval] at h
        simp only [] at h
        have hprog := (parse_progress f).1 _ _ _ hval
        cases hskip : skip_whitespace r0 with
        | nil => rw [hskip] at h; cases h
        | cons w wt =>
          rw [hskip] at h
          simp only [] at h
          have hs1 : (w :: wt).length ≤ r0.length :=
            hskip ▸ skip_whitespace_length r0
          simp only [List.length_cons] at hs1
          by_cases hw44 : w = 44
          · rw [if_pos hw44] at h
            have hs2 := skip_whitespace_length wt
            have hx : 3 * (skip_whitespace wt).length + 2 ≤ f := by omega
            exact ihai _ _ hx h
          · rw [if_neg hw44] at h
            by_cases hw93 : w = 93
            · rw [if_pos hw93] at h; cases h
            · rw [if_neg hw93] at h; cases h
    · -- parse_object_items
      intro acc l hb h
      cases l with
      | nil => cases h
      | cons c ct =>
        simp only [List.length_cons] at hb
        simp only [parse_object_items] at h
        by_cases h34 : c = 34
        · rw [if_pos h34] at h
          cases hkey : parse_string (c :: ct) with
          | error e =>
            rw [hkey] at h
            simp only [] at h
            rw [Except.error.injEq] at h
            exact parse_string_ne_noFuel _ (h ▸ hkey)
          | ok p =>
            obtain ⟨key, r1⟩ := p
            rw [hkey] at h
            simp only [] at h
            have hklen := parse_string_length hkey
            simp only [List.length_cons] at hklen
            cases hw1 : skip_whitespace r1 with
            | nil => rw [hw1] at h; cases h
            | cons c2 r2 =>
              rw [hw1] at h
              simp only [] at h
              have hs1 : (c2 :: r2).length ≤ r1.length :=
                hw1 ▸ skip_whitespace_length r1
              simp only [List.length_cons] at hs1
              by_cases h58 : c2 = 58
              · rw [if_pos h58] at h
                have hs2 := skip_whitespace_length r2
                cases hval : parse_value f (skip_whitespace r2) with
                | error e =>
                  rw [hval] at h
                  simp only [] at h
                  rw [Except.error.injEq] at h
                  exact ihv _ (by omega) (h ▸ hval)
                | ok p2 =>
                  obtain ⟨v2, r3⟩ := p2
                  rw [hval] at h
                  simp only [] at h
                  have hprog := (parse_progress f).1 _ _ _ hval
                  cases hw3 : skip_whitespace r3 with
                  | nil => rw [hw3] at h; cases h
                  | cons c3 r4 =>
                    rw [hw3] at h
                    simp only [] at h
                    have hs3 : (c3 :: r4).length ≤ r3.length :=
                      hw3 ▸ skip_whitespace_length r3
                    simp only [List.length_cons] at hs3
                    by_cases h44 : c3 = 44
                    · rw [if_pos h44] at h
                      have hs4 := skip_whitespace_length r4
                      have hx : 3 * (skip_whitespace r4).length + 2 ≤ f := by
                        omega
                      exact ihoi _ _ hx h
                    · rw [if_neg h44] at h
                      by_cases h125 : c3 = 125
                      · rw [if_pos h125] at h; cases h
                      · rw [if_neg h125] at h; cases h
              · rw [if_neg h58] at h
                cases h
        · rw [if_neg h34] at h
          cases h

/-- The fuel supplied by `parse` is sufficient: `parse` never reports the
embedding artifact `noFuel`; it terminates with a root value or with one of
the parser error conditions of the source. -/
theorem parse_ne_noFuel (input : List Nat) : parse input ≠ .error .noFuel := by
  intro h
  unfold parse at h
  cases hval : parse_value (parseFuel input) (skip_whitespace input) with
  | error e =>
    rw [hval] at h
    simp only [] at h
    rw [Except.error.injEq] at h
    refine (parse_noFuel (parseFuel input)).1 _ ?_ (h ▸ hval)
    have := skip_whitespace_length input
    unfold parseFuel
    omega
  | ok p =>
    obtain ⟨v, r⟩ := p
    rw [hval] at h
    simp only [] at h
    cases hskip : skip_whitespace r with
    | nil => rw [hskip] at h; cases h
    | cons w wt => rw [hskip] at h; cases h

/-! ## The strict order on byte strings and the ordered-map operations -/

theorem lexLt_irrefl (a : List Nat) : lexLt a a = false := by
  induction a with
  | nil => rfl
  | cons x xs ih => simp [lexLt, ih]

theorem lexLt_asymm {a b : List Nat} (h : lexLt a b = true) :
    lexLt b a = false := by
  induction a generalizing b with
  | nil =>
    cases b with
    | nil => simp [lexLt] at h
    | cons y ys => rfl
  | cons x xs ih =>
    cases b with
    | nil => simp [lexLt] at h
    | cons y ys =>
      simp only [lexLt] at h ⊢
      by_cases hxy : x < y
      · rw [if_neg (by omega : ¬y < x), if_pos hxy]
      · rw [if_neg hxy] at h
        by_cases hyx : y < x
        · rw [if_pos hyx] at h; cases h
        · rw [if_neg hyx] at h
          rw [if_neg hyx, if_neg hxy]
          exact ih h

theorem lexLt_trans {a b c : List Nat} (h1 : lexLt a b = true)
    (h2 : lexLt b c = true) : lexLt a c = true := by
  induction a generalizing b c with
  | nil =>
    cases c with
    | nil =>
      cases b with
      | nil => simp [lexLt] at h1
      | cons y ys => simp [lexLt] at h2
    | cons z zs => rfl
  | cons x xs ih =>
    cases b with
    | nil => simp [lexLt] at h1
    | cons y ys =>
      cases c with
      | nil => simp [lexLt] at h2
      | cons z zs =>
        simp only [lexLt] at h1 h2 ⊢
        by_cases hxy : x < y
        · by_cases hyz : y < z
          · rw [if_pos (by omega : x < z)]
          · rw [if_neg hyz] at h2
            by_cases hzy : z < y
            · rw [if_pos hzy] at h2; cases h2
            · have hyz' : y = z := by omega
              subst hyz'
              rw [if_pos hxy]
        · rw [if_neg hxy] at h1
          by_cases hyx : y < x
          · rw [if_pos hyx] at h1; cases h1
          · rw [if_neg hyx] at h1
            have hxy' : x = y := by omega
            subst hxy'
            by_cases hxz : x < z
            · rw [if_pos hxz]
            · rw [if_neg hxz] at h2 ⊢
              by_cases hzx : z < x
              · rw [if_pos hzx] at h2; cases h2
              · rw [if_neg hzx] at h2 ⊢
                exact ih h1 h2

theorem lexLt_eq_of_not_lt {a b : List Nat} (h1 : lexLt a b = false)
    (h2 : lexLt b a = false) : a = b := by
  induction a generalizing b with
  | nil =>
    cases b with
    | nil => rfl
    | cons y ys => simp [lexLt] at h1
  | cons x xs ih =>
    cases b with
    | nil => simp [lexLt] at h2
    | cons y ys =>
      simp only [lexLt] at h1 h2
      by_cases hxy : x < y
      · rw [if_pos hxy] at h1; cases h1
      · rw [if_neg hxy] at h1
        by_cases hyx : y < x
        · rw [if_pos hyx] at h2; cases h2
        · rw [if_neg hyx] at h1
          rw [if_neg hyx, if_neg hxy] at h2
          have : x = y := by omega
          subst this
          rw [ih h1 h2]

theorem keyLB_emplace {b k : List Nat} {v : JsonValue}
    {m : List (List Nat × JsonValue)} (hbk : lexLt b k = true)
    (hlb : keyLB b m = true) : keyLB b (mapEmplace k v m) = true := by
  cases m with
  | nil => simpa [mapEmplace, keyLB]
  | cons e rest =>
    obtain ⟨k1, v1⟩ := e
    simp only [mapEmplace]
    by_cases h1 : lexLt k k1 = true
    · rw [if_pos h1]
      simpa [keyLB]
    · rw [if_neg h1]
      by_cases h2 : lexLt k1 k = true
      · rw [if_pos h2]
        simpa [keyLB] using hlb
      · rw [if_neg h2]
        exact hlb

theorem pairsOrdered_emplace {k : List Nat} {v : JsonValue}
    {m : List (List Nat × JsonValue)} (hm : pairsOrdered m = true) :
    pairsOrdered (mapEmplace k v m) = true := by
  induction m with
  | nil => simp [mapEmplace, pairsOrdered, keyLB]
  | cons e rest ih =>
    obtain ⟨k1, v1⟩ := e
    simp only [pairsOrdered, Bool.and_eq_true] at hm
    obtain ⟨hlb, hrest⟩ := hm
    simp only [mapEmplace]
    by_cases h1 : lexLt k k1 = true
    · rw [if_pos h1]
      simp only [pairsOrdered, keyLB, Bool.and_eq_true]
      exact ⟨h1, hlb, hrest⟩
    · rw [if_neg h1]
      by_cases h2 : lexLt k1 k = true
      · rw [if_pos h2]
        simp only [pairsOrdered, Bool.and_eq_true]
        exact ⟨keyLB_emplace h2 hlb, ih hrest⟩
      · rw [if_neg h2]
        simp only [pairsOrdered, Bool.and_eq_true]
        exact ⟨hlb, hrest⟩

theorem objAllSorted_emplace {k : List Nat} {v : JsonValue}
    {m : List (List Nat × JsonValue)} (hm : objAllSorted m = true)
    (hv : objKeysSorted v = true) : objAllSorted (mapEmplace k v m) = true := by
  induction m with
  | nil => simp [mapEmplace, objAllSorted, hv]
  | cons e rest ih =>
    obtain ⟨k1, v1⟩ := e
    simp only [objAllSorted, Bool.and_eq_true] at hm
    obtain ⟨hv1, hrest⟩ := hm
    simp only [mapEmplace]
    by_cases h1 : lexLt k k1 = true
    · rw [if_pos h1]
      simp only [objAllSorted, Bool.and_eq_true]
      exact ⟨hv, hv1, hrest⟩
    · rw [if_neg h1]
      by_cases h2 : lexLt k1 k = true
      · rw [if_pos h2]
        simp only [objAllSorted, Bool.and_eq_true]
        exact ⟨hv1, ih hrest⟩
      · rw [if_neg h2]
        simp only [objAllSorted, Bool.and_eq_true]
        exact ⟨hv1, hrest⟩

theorem arrAllSorted_append {xs : List JsonValue} {v : JsonValue}
    (hxs : arrAllSorted xs = true) (hv : objKeysSorted v = true) :
    arrAllSorted (xs ++ [v]) = true := by
  induction xs with
  | nil => simp [arrAllSorted, hv]
  | cons x xt ih =>
    simp only [arrAllSorted, Bool.and_eq_true] at hxs
    obtain ⟨hx, hxt⟩ := hxs
    simp only [List.cons_append, arrAllSorted, Bool.and_eq_true]
    exact ⟨hx, ih hxt⟩

theorem mapFind_mem {k : List Nat} {m : List (List Nat × JsonValue)}
    {v : JsonValue} (h : mapFind k m = some v) : (k, v) ∈ m := by
  induction m with
  | nil => cases h
  | cons e rest ih =>
    obtain ⟨k1, v1⟩ := e
    simp only [mapFind] at h
    by_cases hk : k = k1
    · rw [if_pos hk] at h
      rw [Option.some.injEq] at h
      subst hk
      subst h
      exact List.mem_cons_self _ _
    · rw [if_neg hk] at h
      exact List.mem_cons_of_mem _ (ih h)

theorem pairsOrdered_lt_of_mem {k1 : List Nat} {v1 : JsonValue}
    {rest : List (List Nat × JsonValue)} {k : List Nat} {v : JsonValue}
    (hord : pairsOrdered ((k1, v1) :: rest) = true) (hmem : (k, v) ∈ rest) :
    lexLt k1 k = true := by
  induction rest generalizing k1 v1 with
  | nil => cases hmem
  | cons e rest2 ih =>
    obtain ⟨k2, v2⟩ := e
    simp only [pairsOrdered, keyLB, Bool.and_eq_true] at hord
    obtain ⟨h12, hord2⟩ := hord
    rcases List.mem_cons.mp hmem with hhead | htail
    · obtain ⟨rfl, -⟩ := Prod.mk.injEq .. ▸ hhead
      exact h12
    · have hord' : pairsOrdered ((k2, v2) :: rest2) = true := by
        simp only [pairsOrdered, Bool.and_eq_true]
        exact hord2
      exact lexLt_trans h12 (ih hord' htail)

theorem mapFind_eq_some_of_mem {k : List Nat} {v : JsonValue}
    {m : List (List Nat × JsonValue)} (hord : pairsOrdered m = true)
    (hmem : (k, v) ∈ m) : mapFind k m = some v := by
  induction m with
  | nil => cases hmem
  | cons e rest ih =>
    obtain ⟨k1, v1⟩ := e
    simp only [mapFind]
    rcases List.mem_cons.mp hmem with hhead | htail
    · obtain ⟨rfl, rfl⟩ := Prod.mk.injEq .. ▸ hhead
      rw [if_pos rfl]
    · have hlt : lexLt k1 k = true := pairsOrdered_lt_of_mem hord htail
      have hk : ¬k = k1 := by
        intro hkk
        subst hkk
        rw [lexLt_irrefl] at hlt
        cases hlt
      rw [if_neg hk]
      apply ih _ htail
      simp only [pairsOrdered, Bool.and_eq_true] at hord
      exact hord.2

theorem mapFind_eq_none_iff {k : List Nat} {m : List (List Nat × JsonValue)} :
    mapFind k m = none ↔ ∀ v, (k, v) ∉ m := by
  induction m with
  | nil => simp [mapFind]
  | cons e rest ih =>
    obtain ⟨k1, v1⟩ := e
    simp only [mapFind]
    by_cases hk : k = k1
    · rw [if_pos hk]
      subst hk
      constructor
      · intro hcon
        cases hcon
      · intro hnot
        exact absurd (List.mem_cons_self _ _) (hnot v1)
    · rw [if_neg hk]
      rw [ih]
      constructor
      · intro hnone v hmem
        rcases List.mem_cons.mp hmem with hhead | htail
        · exact hk (congrArg Prod.fst hhead)
        · exact hnone v htail
      · intro hnot v htail
        exact hnot v (List.mem_cons_of_mem _ htail)

theorem mapEmplace_of_found {m : List (List Nat × JsonValue)} {k : List Nat}
    {v0 v : JsonValue} (hord : pairsOrdered m = true)
    (hfind : mapFind k m = some v0) : mapEmplace k v m = m := by
  induction m with
  | nil => cases hfind
  | cons e rest ih =>
    obtain ⟨k1, v1⟩ := e
    simp only [pairsOrdered, Bool.and_eq_true] at hord
    obtain ⟨hlb, hrest⟩ := hord
    simp only [mapFind] at hfind
    simp only [mapEmplace]
    by_cases hk : k = k1
    · subst hk
      rw [if_neg (by rw [lexLt_irrefl]; exact Bool.false_ne_true),
        if_neg (by rw [lexLt_irrefl]; exact Bool.false_ne_true)]
    · rw [if_neg hk] at hfind
      have hmem := mapFind_mem hfind
      have hord' : pairsOrdered ((k1, v1) :: rest) = true := by
        simp only [pairsOrdered, Bool.and_eq_true]
        exact ⟨hlb, hrest⟩
      have hlt : lexLt k1 k = true := pairsOrdered_lt_of_mem hord' hmem
      rw [if_neg (by rw [lexLt_asymm hlt]; exact Bool.false_ne_true),
        if_pos hlt, ih hrest hfind]

/-! ## Every object built by the parser is ordered by key -/

theorem objKeysSorted_null : objKeysSorted .null = true := by
  simp [objKeysSorted]

theorem objKeysSorted_bool (b : Bool) : objKeysSorted (.bool b) = true := by
  simp [objKeysSorted]

theorem objKeysSorted_num (x : List Nat) : objKeysSorted (.num x) = true := by
  simp [objKeysSorted]

theorem objKeysSorted_str (s : List Nat) : objKeysSorted (.str s) = true := by
  simp [objKeysSorted]

theorem objKeysSorted_arr (xs : List JsonValue) :
    objKeysSorted (.arr xs) = arrAllSorted xs := by
  simp [objKeysSorted]

theorem objKeysSorted_obj (es : List (List Nat × JsonValue)) :
    objKeysSorted (.obj es) = (pairsOrdered es && objAllSorted es) := by
  simp [objKeysSorted]

theorem parse_null_shape {l : List Nat} {v : JsonValue} {r : List Nat}
    (h : parse_null l = .ok (v, r)) : v = .null := by
  unfold parse_null at h
  cases hm : matchLit [110, 117, 108, 108] l with
  | none => rw [hm] at h; cases h
  | some r0 =>
    rw [hm] at h
    simp at h
    exact h.1.symm

theorem parse_bool_shape {l : List Nat} {v : JsonValue} {r : List Nat}
    (h : parse_bool l = .ok (v, r)) : ∃ b, v = .bool b := by
  unfold parse_bool at h
  cases hm : matchLit [116, 114, 117, 101] l with
  | some r0 =>
    rw [hm] at h
    simp at h
    exact ⟨true, h.1.symm⟩
  | none =>
    rw [hm] at h
    cases hm2 : matchLit [102, 97, 108, 115, 101] l with
    | none => rw [hm2] at h; cases h
    | some r0 =>
      rw [hm2] at h
      simp at h
      exact ⟨false, h.1.symm⟩

theorem parse_number_shape {l : List Nat} {v : JsonValue} {r : List Nat}
    (h : parse_number l = .ok (v, r)) : ∃ x, v = .num x := by
  cases l with
  | nil => cases h
  | cons c0 r0 =>
    simp only [parse_number] at h
    split at h
    · cases h
    · rename_i ip l2 hint
      split at h
      · cases h
      · rename_i fp l3 hfrac
        split at h
        · cases h
        · rename_i ep l4 hexp
          rw [Except.ok.injEq, Prod.mk.injEq] at h
          exact ⟨_, h.1.symm⟩

/-- Sortedness invariant carried through the mutually recursive parsers:
every successfully parsed value has lexicographically ordered keys in each of
its object nodes, provided the accumulators already do. -/
theorem parse_sorted (fuel : Nat) :
    (∀ l v r, parse_value fuel l = .ok (v, r) → objKeysSorted v = true) ∧
    (∀ l v r, parse_array fuel l = .ok (v, r) → objKeysSorted v = true) ∧
    (∀ l v r, parse_object fuel l = .ok (v, r) → objKeysSorted v = true) ∧
    (∀ acc l v r, arrAllSorted acc = true →
      parse_array_items fuel acc l = .ok (v, r) → objKeysSorted v = true) ∧
    (∀ acc l v r, pairsOrdered acc = true → objAllSorted acc = true →
      parse_object_items fuel acc l = .ok (v, r) → objKeysSorted v = true) := by
  induction fuel with
  | zero =>
    refine ⟨fun l v r h => ?_, fun l v r h => ?_, fun l v r h => ?_,
      fun acc l v r ha h => ?_, fun acc l v r hp ha h => ?_⟩ <;> cases h
  | succ f ih =>
    obtain ⟨ihv, iha, iho, ihai, ihoi⟩ := ih
    refine ⟨?_, ?_, ?_, ?_, ?_⟩
    · -- parse_value
      intro l v r h
      cases l with
      | nil => cases h
      | cons c ct =>
        simp only [parse_value] at h
        by_cases h110 : c = 110
        · rw [if_pos h110] at h
          rw [parse_null_shape h]
          exact objKeysSorted_null
        · rw [if_neg h110] at h
          by_cases htf : c = 116 ∨ c = 102
          · rw [if_pos htf] at h
            obtain ⟨b, rfl⟩ := parse_bool_shape h
            exact objKeysSorted_bool b
          · rw [if_neg htf] at h
            by_cases h34 : c = 34
            · rw [if_pos h34] at h
              cases hs : parse_string (c :: ct) with
              | error e => rw [hs] at h; cases h
              | ok p =>
                obtain ⟨s0, r0⟩ := p
                rw [hs] at h
                simp only [] at h
                rw [Except.ok.injEq, Prod.mk.injEq] at h
                rw [← h.1]
                exact objKeysSorted_str s0
            · rw [if_neg h34] at h
              by_cases h91 : c = 91
              · rw [if_pos h91] at h
                exact iha _ _ _ h
              · rw [if_neg h91] at h
                by_cases h123 : c = 123
                · rw [if_pos h123] at h
                  exact iho _ _ _ h
                · rw [if_neg h123] at h
                  by_cases hnum : c = 45 ∨ isdigit c = true
                  · rw [if_pos hnum] at h
                    obtain ⟨x, rfl⟩ := parse_number_shape h
                    exact objKeysSorted_num x
                  · rw [if_neg hnum] at h
                    cases h
    · -- parse_array
      intro l v r h
      cases l with
      | nil => cases h
      | cons c ct =>
        simp only [parse_array] at h
        by_cases h91 : c = 91
        · rw [if_pos h91] at h
          cases hskip : skip_whitespace ct with
          | nil => rw [hskip] at h; cases h
          | cons w wt =>
            rw [hskip] at h
            simp only [] at h
            by_cases hw : w = 93
            · rw [if_pos hw] at h
              rw [Except.ok.injEq, Prod.mk.injEq] at h
              rw [← h.1, objKeysSorted_arr]
              rfl
            · rw [if_neg hw] at h
              exact ihai [] _ _ _ rfl h
        · rw [if_neg h91] at h
          cases h
    · -- parse_object
      intro l v r h
      cases l with
      | nil => cases h
      | cons c ct =>
        simp only [parse_object] at h
        by_cases h123 : c = 123
        · rw [if_pos h123] at h
          cases hskip : skip_whitespace ct with
          | nil => rw [hskip] at h; cases h
          | cons w wt =>
            rw [hskip] at h
            simp only [] at h
            by_cases hw : w = 125
            · rw [if_pos hw] at h
              rw [Except.ok.injEq, Prod.mk.injEq] at h
              rw [← h.1, objKeysSorted_obj]
              rfl
            · rw [if_neg hw] at h
              exact ihoi [] _ _ _ rfl rfl h
        · rw [if_neg h123] at h
          cases h
    · -- parse_array_items
      intro acc l v r hacc h
      simp only [parse_array_items] at h
      cases hval : parse_value f l with
      | error e => rw [hval] at h; cases h
      | ok p =>
        obtain ⟨v0, r0⟩ := p
        rw [hval] at h
        simp only [] at h
        have hv0 := ihv _ _ _ hval
        have hacc2 : arrAllSorted (acc ++ [v0]) = true :=
          arrAllSorted_append hacc hv0
        cases hskip : skip_whitespace r0 with
        | nil => rw [hskip] at h; cases h
        | cons w wt =>
          rw [hskip] at h
          simp only [] at h
          by_cases hw44 : w = 44
          · rw [if_pos hw44] at h
            exact ihai _ _ _ _ hacc2 h
          · rw [if_neg hw44] at h
            by_cases hw93 : w = 93
            · rw [if_pos hw93] at h
              rw [Except.ok.injEq, Prod.mk.injEq] at h
              rw [← h.1, objKeysSorted_arr]
              exact hacc2
            · rw [if_neg hw93] at h
              cases h
    · -- parse_object_items
      intro acc l v r hp ha h
      cases l with
      | nil => cases h
      | cons c ct =>
        simp only [parse_object_items] at h
        by_cases h34 : c = 34
        · rw [if_pos h34] at h
          cases hkey : parse_string (c :: ct) with
          | error e => rw [hkey] at h; cases h
          | ok p =>
            obtain ⟨key, r1⟩ := p
            rw [hkey] at h
            simp only [] at h
            cases hw1 : skip_whitespace r1 with
            | nil => rw [hw1] at h; cases h
            | cons c2 r2 =>
              rw [hw1] at h
              simp only [] at h
              by_cases h58 : c2 = 58
              · rw [if_pos h58] at h
                cases hval : parse_value f (skip_whitespace r2) with
                | error e => rw [hval] at h; cases h
                | ok p2 =>
                  obtain ⟨v2, r3⟩ := p2
                  rw [hval] at h
                  simp only [] at h
                  have hv2 := ihv _ _ _ hval
                  have hp2 : pairsOrdered (mapEmplace key v2 acc) = true :=
                    pairsOrdered_emplace hp
                  have ha2 : objAllSorted (mapEmplace key v2 acc) = true :=
                    objAllSorted_emplace ha hv2
                  cases hw3 : skip_whitespace r3 with
                  | nil => rw [hw3] at h; cases h
                  | cons c3 r4 =>
                    rw [hw3] at h
                    simp only [] at h
                    by_cases h44 : c3 = 44
                    · rw [if_pos h44] at h
                      exact ihoi _ _ _ _ hp2 ha2 h
                    · rw [if_neg h44] at h
                      by_cases h125 : c3 = 125
                      · rw [if_pos h125] at h
                        rw [Except.ok.injEq, Prod.mk.injEq] at h
                        rw [← h.1, objKeysSorted_obj]
                        rw [hp2, ha2]
                        rfl
                      · rw [if_neg h125] at h
                        cases h
              · rw [if_neg h58] at h
                cases h
        · rw [if_neg h34] at h
          cases h

/-- The root value returned by `parse` satisfies the object-ordering
invariant everywhere. -/
theorem parse_sorted_root {input : List Nat} {v : JsonValue}
    (h : parse input = .ok v) : objKeysSorted v = true := by
  unfold parse at h
  cases hval : parse_value (parseFuel input) (skip_whitespace input) with
  | error e => rw [hval] at h; cases h
  | ok p =>
    obtain ⟨v0, r⟩ := p
    rw [hval] at h
    simp only [] at h
    cases hskip : skip_whitespace r with
    | nil =>
      rw [hskip] at h
      rw [Except.ok.injEq] at h
      rw [← h]
      exact (parse_sorted (parseFuel input)).1 _ _ _ hval
    | cons w wt => rw [hskip] at h; cases h

/-! ## The claims -/

/-- Claim C1: when the same key occurs more than once in an object literal,
the value from the first occurrence is kept and later values for that key are
silently discarded (`std::map::emplace` does not overwrite an existing
entry); in particular parsing the object literal with key `a` bound first to
`1` and then to `2` yields the object mapping `a` to the number `1`. -/
theorem claim_C1 :
    (∀ (m : List (List Nat × JsonValue)) (k : List Nat) (v0 v : JsonValue),
      pairsOrdered m = true → mapFind k m = some v0 → mapEmplace k v m = m) ∧
    parse [123, 34, 97, 34, 58, 49, 44, 34, 97, 34, 58, 50, 125] =
      .ok (.obj [([97], .num [49])]) :=
  ⟨fun _ _ _ _ hord hf => mapEmplace_of_found hord hf, rfl⟩

theorem claim_C1_witness :
    mapEmplace [97] (JsonValue.bool true) [([97], JsonValue.null)] =
      [([97], JsonValue.null)] :=
  claim_C1.1 [([97], JsonValue.null)] [97] JsonValue.null (JsonValue.bool true)
    rfl rfl

/-- Claim C2: a `\u` escape whose four hex digits denote a value of at most
0x7F appends that ASCII byte, and any larger value appends exactly one
question mark (byte 63); in particular the string literal `café` parses
to the bytes of `caf?`. -/
theorem claim_C2 :
    (∀ (h1 h2 h3 h4 : Nat) (rest : List Nat) (a b c d : Nat),
      hexVal h1 = some a → hexVal h2 = some b → hexVal h3 = some c →
      hexVal h4 = some d →
      parse_unicode_escape (h1 :: h2 :: h3 :: h4 :: rest) =
        .ok ((if ((a * 16 + b) * 16 + c) * 16 + d ≤ 127 then
          ((a * 16 + b) * 16 + c) * 16 + d else 63), rest)) ∧
    parse [34, 99, 97, 102, 92, 117, 48, 48, 101, 57, 34] =
      .ok (.str [99, 97, 102, 63]) := by
  refine ⟨?_, rfl⟩
  intro h1 h2 h3 h4 rest a b c d e1 e2 e3 e4
  unfold parse_unicode_escape
  have hr : readHex4 4 0 (h1 :: h2 :: h3 :: h4 :: rest) =
      .ok ((((0 * 16 + a) * 16 + b) * 16 + c) * 16 + d, rest) := by
    simp [readHex4, e1, e2, e3, e4]
  rw [hr]
  simp only [Nat.zero_mul, Nat.zero_add]

theorem claim_C2_witness :
    parse_unicode_escape [48, 48, 101, 57, 34] = .ok (63, [34]) := by
  have h := claim_C2.1 48 48 101 57 [34] 0 0 14 9 rfl rfl rfl rfl
  simpa using h

/-- Claim C3: after one JSON value and trailing whitespace, any remaining
input makes `parse` fail with the trailing-content error; in particular the
input `01` parses `0` as the whole number and fails on the unconsumed `1`. -/
theorem claim_C3 :
    (∀ (input : List Nat) (v : JsonValue) (r : List Nat),
      parse_value (parseFuel input) (skip_whitespace input) = .ok (v, r) →
      skip_whitespace r ≠ [] → parse input = .error .trailingContent) ∧
    parse [48, 49] = .error .trailingContent := by
  refine ⟨?_, rfl⟩
  intro input v r hval hne
  unfold parse
  rw [hval]
  simp only []
  cases hskip : skip_whitespace r with
  | nil => exact absurd hskip hne
  | cons w wt => rfl

theorem claim_C3_witness :
    parse [48, 49] = .error .trailingContent :=
  claim_C3.1 [48, 49] (.num [48]) [49] rfl (by decide)

/-- Claim C4 as stated is false on the code: `skip_whitespace` uses
`std::isspace` in the C locale, which also accepts vertical tab (0x0B) and
form feed (0x0C), so more than the four claimed characters are consumed as
whitespace.  Byte 11 is consumed although it is none of space, tab, newline,
carriage return. -/
theorem claim_C4_counterexample :
    skip_whitespace [11, 49] = [49] ∧
    (11 : Nat) ∉ ([32, 9, 10, 13] : List Nat) ∧
    ¬(∀ (c : Nat) (l : List Nat), c ∉ ([32, 9, 10, 13] : List Nat) →
        skip_whitespace (c :: l) = c :: l) := by
  refine ⟨rfl, by decide, fun hall => ?_⟩
  have h1 := hall 11 [49] (by decide)
  have h2 : skip_whitespace [11, 49] = [49] := rfl
  rw [h2] at h1
  cases h1

/-- Claim C4, amended: wherever the parser skips whitespace it skips exactly
the six C-locale whitespace characters space (0x20), tab (0x09), newline
(0x0A), vertical tab (0x0B), form feed (0x0C) and carriage return (0x0D),
and no other character is consumed as whitespace. -/
theorem claim_C4_amended :
    ∀ (c : Nat) (l : List Nat),
      (isspace c = true ↔ c ∈ ([32, 9, 10, 11, 12, 13] : List Nat)) ∧
      (isspace c = true → skip_whitespace (c :: l) = skip_whitespace l) ∧
      (isspace c = false → skip_whitespace (c :: l) = c :: l) := by
  intro c l
  refine ⟨?_, ?_, ?_⟩
  · simp only [isspace, List.mem_cons, List.not_mem_nil, or_false,
      Bool.or_eq_true, beq_iff_eq]
    tauto
  · intro hs
    simp [skip_whitespace, hs]
  · intro hs
    simp [skip_whitespace, hs]

theorem claim_C4_witness :
    skip_whitespace (11 :: [49]) = skip_whitespace [49] ∧
    skip_whitespace (65 :: [49]) = 65 :: [49] :=
  ⟨(claim_C4_amended 11 [49]).2.1 rfl, (claim_C4_amended 65 [49]).2.2 rfl⟩

/-- Claim C5: object lookup returns the mapped value exactly when the key is
present (on a well-formed, ordered object) and the explicit absent result
`none` exactly when no entry has the key; array lookup returns the element
exactly for indices below the length and `none` otherwise.  Both are total
functions into `Option`, so they never fail. -/
theorem claim_C5 :
    (∀ (m : List (List Nat × JsonValue)) (k : List Nat) (v : JsonValue),
      pairsOrdered m = true → (get_object m k = some v ↔ (k, v) ∈ m)) ∧
    (∀ (m : List (List Nat × JsonValue)) (k : List Nat),
      get_object m k = none ↔ ∀ v, (k, v) ∉ m) ∧
    (∀ (a : List JsonValue) (i : Nat) (h : i < a.length),
      get_array a i = some (a.get ⟨i, h⟩)) ∧
    (∀ (a : List JsonValue) (i : Nat), a.length ≤ i → get_array a i = none) := by
  refine ⟨?_, ?_, ?_, ?_⟩
  · intro m k v hord
    exact ⟨mapFind_mem, mapFind_eq_some_of_mem hord⟩
  · intro m k
    exact mapFind_eq_none_iff
  · intro a i h
    unfold get_array
    rw [dif_neg (by omega)]
  · intro a i h
    unfold get_array
    rw [dif_pos h]

theorem claim_C5_witness :
    get_object [([97], JsonValue.null)] [97] = some JsonValue.null ∧
    get_array [JsonValue.null] 0 = some JsonValue.null ∧
    get_array [JsonValue.null] 3 = none :=
  ⟨(claim_C5.1 [([97], JsonValue.null)] [97] JsonValue.null rfl).mpr
      (List.mem_cons_self _ _),
    claim_C5.2.2.1 [JsonValue.null] 0 (by decide),
    claim_C5.2.2.2 [JsonValue.null] 3 (by decide)⟩

/-- Claim C6: inside an object literal, a next byte other than a double quote
where a pair is expected fails with the expected-object-key error, and a
missing colon after a key fails with the expected-colon error
(`expectedChar 58`); in particular an object with a trailing comma fails with
the expected-object-key error. -/
theorem claim_C6 :
    (∀ (f : Nat) (acc : List (List Nat × JsonValue)) (c : Nat) (ct : List Nat),
      c ≠ 34 →
      parse_object_items (f + 1) acc (c :: ct) = .error .expectedObjectKey) ∧
    (∀ (f : Nat) (acc : List (List Nat × JsonValue))
      (lt key r1 : List Nat) (c2 : Nat) (r2 : List Nat),
      parse_string (34 :: lt) = .ok (key, r1) →
      skip_whitespace r1 = c2 :: r2 → c2 ≠ 58 →
      parse_object_items (f + 1) acc (34 :: lt) = .error (.expectedChar 58)) ∧
    parse [123, 34, 97, 34, 58, 49, 44, 125] = .error .expectedObjectKey := by
  refine ⟨?_, ?_, rfl⟩
  · intro f acc c ct hc
    simp only [parse_object_items]
    rw [if_neg hc]
  · intro f acc lt key r1 c2 r2 hkey hskip hc2
    simp only [parse_object_items]
    rw [if_pos trivial, hkey]
    simp only []
    rw [hskip]
    simp only []
    rw [if_neg hc2]

theorem claim_C6_witness :
    parse_object_items 1 [] [125] = .error .expectedObjectKey ∧
    parse_object_items 1 [] [34, 97, 34, 120] = .error (.expectedChar 58) :=
  ⟨claim_C6.1 0 [] 125 [] (by decide),
    claim_C6.2.1 0 [] [97, 34, 120] [97] [120] 120 [] rfl rfl (by decide)⟩

/-- Claim C7: each typed accessor returns the contained value when the
variant matches its kind and fails loudly with the type-mismatch error
(`std::bad_variant_access` thrown by `std::get`) when it does not; it never
returns a value of the wrong kind, coerces, or yields a default. -/
theorem claim_C7 :
    (∀ s, as_string (.str s) = .ok s) ∧
    (∀ v : JsonValue, is_string v = false →
      as_string v = .error "bad_variant_access") ∧
    (∀ x, as_number (.num x) = .ok x) ∧
    (∀ v : JsonValue, is_number v = false →
      as_number v = .error "bad_variant_access") ∧
    (∀ b, as_bool (.bool b) = .ok b) ∧
    (∀ v : JsonValue, is_bool v = false →
      as_bool v = .error "bad_variant_access") ∧
    (∀ xs, as_array (.arr xs) = .ok xs) ∧
    (∀ v : JsonValue, is_array v = false →
      as_array v = .error "bad_variant_access") ∧
    (∀ es, as_object (.obj es) = .ok es) ∧
    (∀ v : JsonValue, is_object v = false →
      as_object v = .error "bad_variant_access") := by
  refine ⟨fun s => rfl, ?_, fun x => rfl, ?_, fun b => rfl, ?_,
    fun xs => rfl, ?_, fun es => rfl, ?_⟩ <;>
    (intro v hv
     cases v <;>
       first
       | rfl
       | (simp [is_string, is_number, is_bool, is_array, is_object] at hv))

theorem claim_C7_witness :
    as_string (JsonValue.num [49]) = .error "bad_variant_access" ∧
    as_number JsonValue.null = .error "bad_variant_access" ∧
    as_bool (JsonValue.str [97]) = .error "bad_variant_access" :=
  ⟨claim_C7.2.1 (JsonValue.num [49]) rfl,
    claim_C7.2.2.2.1 JsonValue.null rfl,
    claim_C7.2.2.2.2.2.1 (JsonValue.str [97]) rfl⟩

/-- Claim C8: every object produced by the parser, anywhere in the returned
value, lists its entries in strictly increasing lexicographic byte order of
the keys, not in input order; in particular the object literal with key `b`
before key `a` parses to the object listing `a` before `b`. -/
theorem claim_C8 :
    (∀ (input : List Nat) (v : JsonValue), parse input = .ok v →
      objKeysSorted v = true) ∧
    parse [123, 34, 98, 34, 58, 116, 114, 117, 101, 44, 34, 97, 34, 58, 110,
      117, 108, 108, 125] = .ok (.obj [([97], .null), ([98], .bool true)]) :=
  ⟨fun _ _ h => parse_sorted_root h, rfl⟩

theorem claim_C8_witness :
    objKeysSorted (JsonValue.obj
      [([97], JsonValue.null), ([98], JsonValue.bool true)]) = true :=
  claim_C8.1 [123, 34, 98, 34, 58, 116, 114, 117, 101, 44, 34, 97, 34, 58,
    110, 117, 108, 108, 125] _ rfl

/-- Claim C9: the parser terminates on every finite input — the fuel
`parse` supplies is never exhausted, so `parse` always returns either a root
value or one of the genuine parser errors of the source — and every
successful `parse_value` step strictly advances the cursor (consumes at
least one byte), which makes the recursion and the loops well founded. -/
theorem claim_C9 :
    (∀ input : List Nat, parse input ≠ .error .noFuel) ∧
    (∀ (fuel : Nat) (l : List Nat) (v : JsonValue) (r : List Nat),
      parse_value fuel l = .ok (v, r) → r.length < l.length) :=
  ⟨parse_ne_noFuel, fun fuel _ _ _ h => (parse_progress fuel).1 _ _ _ h⟩

theorem claim_C9_witness :
    ([] : List Nat).length < [49].length :=
  claim_C9.2 4 [49] (.num [49]) [] rfl

/-- Claim C10: in a string literal, an unescaped byte of value 0x80 or above
is appended to the output unchanged (never rejected), the control-character
error is raised exactly for unescaped bytes below 0x20, and so multi-byte
UTF-8 sequences pass through byte for byte; in particular the two-byte UTF-8
string for e-acute parses to those same two bytes. -/
theorem claim_C10 :
    (∀ (f : Nat) (c : Nat) (rest : List Nat), 128 ≤ c →
      parse_string_core (f + 1) (c :: rest) =
        consMap c (parse_string_core f rest)) ∧
    (∀ (f : Nat) (c : Nat) (rest : List Nat), c < 32 →
      parse_string_core (f + 1) (c :: rest) = .error .invalidControlChar) ∧
    parse [34, 195, 169, 34] = .ok (.str [195, 169]) := by
  refine ⟨?_, ?_, rfl⟩
  · intro f c rest hc
    simp only [parse_string_core]
    rw [if_neg (by omega : ¬c = 34), if_neg (by omega : ¬c = 92),
      if_neg (by omega : ¬c < 32)]
  · intro f c rest hc
    simp only [parse_string_core]
    rw [if_neg (by omega : ¬c = 34), if_neg (by omega : ¬c = 92),
      if_pos hc]

theorem claim_C10_witness :
    parse_string_core 2 [200, 34] = consMap 200 (parse_string_core 1 [34]) ∧
    parse_string_core 1 [5] = .error .invalidControlChar :=
  ⟨claim_C10.1 1 200 [34] (by decide), claim_C10.2.1 0 5 [] (by decide)⟩

end simplejson
